import Mathlib

/-!
Verification of the Detective Quest repository (src/algoritmos_avancados.c).

The C file concatenates three programs (novice, adventurer and master level).
We shallowly embed the data structures and operations the master program uses,
together with the novice exploration loop:

* C strings (`char[]` buffers holding NUL-terminated byte strings) are modelled
  as `List Nat` of byte values; `strcmp` is the usual byte-wise lexicographic
  three-way comparison.  `strncpy(dst, src, n)` followed by `dst[n] = 0` is
  modelled as `List.take n`.
* `PistaNode` trees (the clue BST) become `PistaTree`; `inserirPista`,
  `exibirPistas` (modelled as the list of clue lines it prints, in traversal
  order) and `contarPistasParaSuspeito` follow the C code line by line.
* The suspect hash table (`SuspeitoHash`, 10 buckets, djb2-style hash over
  `tolower`ed bytes, 64-bit `unsigned long` arithmetic) becomes a function
  `Fin 10 → List HashEntry`, buckets being front-inserted chains.
* The interactive exploration loops consume an explicit list of input
  characters (the bytes `scanf(" %c")` would deliver); running out of input is
  the `semEntrada` outcome.  Allocation failure is modelled by an explicit
  `Bool` flag on the allocating operations, `Except.error ()` standing for
  `exit(EXIT_FAILURE)`.
-/

set_option maxRecDepth 40000

/-- A C byte string (the bytes of a NUL-terminated `char[]`, NUL excluded). -/
abbrev Str : Type := List Nat

/-- Byte string of a Lean string literal (each char as its code point). -/
def str (s : String) : Str := s.data.map Char.toNat

/-- C `strcmp`, byte-wise three-way lexicographic comparison.  The empty list
plays the role of the NUL terminator (smaller than every nonempty suffix). -/
def strcmp : Str → Str → Ordering
  | [], [] => .eq
  | [], _ :: _ => .lt
  | _ :: _, [] => .gt
  | a :: as, b :: bs =>
    if a < b then .lt else if b < a then .gt else strcmp as bs

/-- Models `strcmp a b < 0`. -/
def slt (a b : Str) : Prop := strcmp a b = .lt

/-- Models `strcmp a b <= 0`. -/
def sle (a b : Str) : Prop := strcmp a b ≠ .gt

instance (a b : Str) : Decidable (slt a b) :=
  inferInstanceAs (Decidable (strcmp a b = .lt))

instance (a b : Str) : Decidable (sle a b) :=
  inferInstanceAs (Decidable (strcmp a b ≠ .gt))

theorem strcmp_nil_nil : strcmp [] [] = .eq := rfl

theorem strcmp_nil_cons (b : Nat) (bs : Str) : strcmp [] (b :: bs) = .lt := rfl

theorem strcmp_cons_nil (a : Nat) (as : Str) : strcmp (a :: as) [] = .gt := rfl

theorem strcmp_cons (a b : Nat) (as bs : Str) :
    strcmp (a :: as) (b :: bs) =
      if a < b then .lt else if b < a then .gt else strcmp as bs := rfl

theorem strcmp_self (a : Str) : strcmp a a = .eq := by
  induction a with
  | nil => rfl
  | cons c cs ih => simp [strcmp_cons, ih]

theorem strcmp_eq_iff {a b : Str} : strcmp a b = .eq ↔ a = b := by
  induction a generalizing b with
  | nil => cases b <;> simp [strcmp_nil_nil, strcmp_nil_cons]
  | cons c cs ih =>
    cases b with
    | nil => simp [strcmp_cons_nil]
    | cons d ds =>
      rw [strcmp_cons]
      by_cases hcd : c < d
      · simp only [hcd, if_true]
        simp only [List.cons.injEq]
        constructor
        · intro h; cases h
        · intro h; omega
      · by_cases hdc : d < c
        · simp only [hcd, hdc, if_false, if_true]
          simp only [List.cons.injEq]
          constructor
          · intro h; cases h
          · intro h; omega
        · have hcd' : c = d := by omega
          subst hcd'
          simp [hcd, hdc, ih]

theorem strcmp_gt_iff {a b : Str} : strcmp a b = .gt ↔ strcmp b a = .lt := by
  induction a generalizing b with
  | nil => cases b <;> simp [strcmp_nil_nil, strcmp_nil_cons, strcmp_cons_nil]
  | cons c cs ih =>
    cases b with
    | nil => simp [strcmp_cons_nil, strcmp_nil_cons]
    | cons d ds =>
      rw [strcmp_cons, strcmp_cons]
      by_cases hcd : c < d
      · have hdc : ¬ d < c := by omega
        simp [hcd, hdc]
      · by_cases hdc : d < c
        · simp [hcd, hdc]
        · simp [hcd, hdc, ih]

theorem sle_iff {a b : Str} : sle a b ↔ slt a b ∨ a = b := by
  unfold sle slt
  rcases h : strcmp a b with _ | _ | _
  · simp
  · simp [strcmp_eq_iff.mp h]
  · constructor
    · intro hh; exact absurd rfl hh
    · rintro (hh | hh)
      · cases hh
      · subst hh
        rw [strcmp_self] at h
        cases h

theorem slt_ne {a b : Str} (h : slt a b) : a ≠ b := by
  intro hab
  subst hab
  unfold slt at h
  rw [strcmp_self] at h
  cases h

theorem slt_trans {a b c : Str} (h1 : slt a b) (h2 : slt b c) : slt a c := by
  induction a generalizing b c with
  | nil =>
    cases b with
    | nil => exact absurd h1 (by simp [slt, strcmp_nil_nil])
    | cons y ys =>
      cases c with
      | nil => exact absurd h2 (by simp [slt, strcmp_cons_nil])
      | cons z zs => simp [slt, strcmp_nil_cons]
  | cons x xs ih =>
    cases b with
    | nil => exact absurd h1 (by simp [slt, strcmp_cons_nil])
    | cons y ys =>
      cases c with
      | nil => exact absurd h2 (by simp [slt, strcmp_cons_nil])
      | cons z zs =>
        unfold slt at h1 h2 ⊢
        rw [strcmp_cons] at h1 h2 ⊢
        by_cases hxy : x < y
        · by_cases hyz : y < z
          · have hxz : x < z := by omega
            simp [hxz]
          · simp only [hyz, if_false] at h2
            by_cases hzy : z < y
            · simp [hzy] at h2
            · have hyz' : y = z := by omega
              subst hyz'
              simp [hxy]
        · simp only [hxy, if_false] at h1
          by_cases hyx : y < x
          · simp [hyx] at h1
          · have hxy' : x = y := by omega
            subst hxy'
            simp only [hyx, if_false] at h1
            by_cases hxz : x < z
            · simp [hxz]
            · simp only [hxz, if_false] at h2 ⊢
              by_cases hzx : z < x
              · simp [hzx] at h2
              · simp only [hzx, if_false] at h2 ⊢
                exact ih h1 h2

theorem slt_of_sle_of_slt {a b c : Str} (h1 : sle a b) (h2 : slt b c) : slt a c := by
  rcases sle_iff.mp h1 with h | h
  · exact slt_trans h h2
  · exact h ▸ h2

theorem slt_of_slt_of_sle {a b c : Str} (h1 : slt a b) (h2 : sle b c) : slt a c := by
  rcases sle_iff.mp h2 with h | h
  · exact slt_trans h1 h
  · exact h ▸ h1

theorem sle_trans {a b c : Str} (h1 : sle a b) (h2 : sle b c) : sle a c := by
  rcases sle_iff.mp h1 with h | h
  · exact sle_iff.mpr (Or.inl (slt_of_slt_of_sle h h2))
  · exact h ▸ h2

/-- A prefix of a byte string is `<=` the whole string (`strcmp` never says
the prefix is greater). -/
theorem take_sle (n : Nat) (a : Str) : sle (a.take n) a := by
  induction a generalizing n with
  | nil => simp [sle, strcmp_nil_nil]
  | cons c cs ih =>
    cases n with
    | zero => simp [sle, strcmp_nil_cons]
    | succ m =>
      simp only [List.take]
      unfold sle
      rw [strcmp_cons]
      simp only [lt_irrefl, if_false]
      exact ih m

/-- If `s` is strictly below `p` and fits in `n` bytes, then `s` is still
`<=` the `n`-byte truncation of `p`. -/
theorem sle_take_of_slt {s p : Str} {n : Nat} (hlen : s.length ≤ n)
    (hlt : slt s p) : sle s (p.take n) := by
  induction s generalizing p n with
  | nil =>
    cases p.take n with
    | nil => simp [sle, strcmp_nil_nil]
    | cons c cs => simp [sle, strcmp_nil_cons]
  | cons a as ih =>
    cases p with
    | nil => exact absurd hlt (by simp [slt, strcmp_cons_nil])
    | cons b bs =>
      cases n with
      | zero => simp at hlen
      | succ m =>
        simp only [List.take]
        unfold slt at hlt
        unfold sle
        rw [strcmp_cons] at hlt ⊢
        by_cases hab : a < b
        · simp [hab]
        · simp only [hab, if_false] at hlt ⊢
          by_cases hba : b < a
          · simp [hba] at hlt
          · simp only [hba, if_false] at hlt ⊢
            have hlen' : as.length ≤ m := by
              simp only [List.length_cons] at hlen
              omega
            exact ih hlen' hlt

/-- Truncating a list that already fits changes nothing
(`strncpy` copies short strings verbatim). -/
theorem take_of_len_le {α : Type} {l : List α} {n : Nat} (h : l.length ≤ n) :
    l.take n = l := by
  induction l generalizing n with
  | nil => simp
  | cons c cs ih =>
    cases n with
    | zero => simp at h
    | succ m =>
      simp only [List.length_cons] at h
      have h' : cs.length ≤ m := by omega
      simp only [List.take_succ_cons]
      rw [ih h']

/-! ## The clue BST (`PistaNode` / `inserirPista` / `exibirPistas`) -/

/-- A `PistaNode *` value: `NULL` or a node with left child, stored clue and
right child (`pista` is a `char[100]` buffer, hence at most 99 bytes). -/
inductive PistaTree : Type where
  | nil : PistaTree
  | node : PistaTree → Str → PistaTree → PistaTree
deriving DecidableEq

/-- Models `criarPistaNode`: allocates a leaf node; `strncpy(pista, p, 99)` plus the
explicit terminator stores the first 99 bytes of the clue. -/
def criarPistaNode (conteudoPista : Str) : PistaTree :=
  .node .nil (conteudoPista.take 99) .nil

/-- Models `inserirPista` (master level, lines 623-637): recursive BST insert ordered
by `strcmp`; an equal key leaves the tree unchanged. -/
def inserirPista : PistaTree → Str → PistaTree
  | .nil, conteudoPista => criarPistaNode conteudoPista
  | .node esquerda pista direita, conteudoPista =>
    match strcmp conteudoPista pista with
    | .lt => .node (inserirPista esquerda conteudoPista) pista direita
    | .gt => .node esquerda pista (inserirPista direita conteudoPista)
    | .eq => .node esquerda pista direita

/-- Models `exibirPistas`: the sequence of clue lines printed by the in-order
traversal (left, root, right). -/
def exibirPistas : PistaTree → List Str
  | .nil => []
  | .node esquerda pista direita =>
    exibirPistas esquerda ++ pista :: exibirPistas direita

/-- Number of nodes of a clue BST. -/
def tamanhoPistas : PistaTree → Nat
  | .nil => 0
  | .node esquerda _ direita => tamanhoPistas esquerda + tamanhoPistas direita + 1

/-- Folding a whole list of clues into the BST, starting from `NULL`. -/
def construirPistas (ps : List Str) : PistaTree :=
  ps.foldl inserirPista .nil

/-- Holds when `P` holds for every clue stored in the tree. -/
def AllP (P : Str → Prop) : PistaTree → Prop
  | .nil => True
  | .node esquerda pista direita => P pista ∧ AllP P esquerda ∧ AllP P direita

instance decAllP (P : Str → Prop) [DecidablePred P] :
    (t : PistaTree) → Decidable (AllP P t)
  | .nil => .isTrue trivial
  | .node l v r =>
    have := decAllP P l
    have := decAllP P r
    inferInstanceAs (Decidable (P v ∧ AllP P l ∧ AllP P r))

/-- The invariant `inserirPista` maintains for arbitrary (possibly truncated)
inserts: keys on the left are strictly smaller, keys on the right at least as
large.  (With truncation an inserted key can collide with the node key, which
is why the right side is only `sle`.) -/
def LooseBST : PistaTree → Prop
  | .nil => True
  | .node esquerda pista direita =>
    AllP (fun x => slt x pista) esquerda ∧ AllP (fun x => sle pista x) direita ∧
      LooseBST esquerda ∧ LooseBST direita

/-- The strict search-tree invariant, which holds as long as no inserted clue
was longer than the 99 bytes the node buffer can keep. -/
def StrictBST : PistaTree → Prop
  | .nil => True
  | .node esquerda pista direita =>
    AllP (fun x => slt x pista) esquerda ∧ AllP (fun x => slt pista x) direita ∧
      StrictBST esquerda ∧ StrictBST direita

instance decStrictBST : (t : PistaTree) → Decidable (StrictBST t)
  | .nil => .isTrue trivial
  | .node l _ r =>
    have := decStrictBST l
    have := decStrictBST r
    inferInstanceAs (Decidable (_ ∧ _ ∧ StrictBST l ∧ StrictBST r))

/-- All stored clues fit their 99-byte buffer. -/
def Len99 (t : PistaTree) : Prop := AllP (fun v => v.length ≤ 99) t

theorem AllP_mem {P : Str → Prop} {t : PistaTree} {x : Str}
    (ht : AllP P t) (hx : x ∈ exibirPistas t) : P x := by
  induction t with
  | nil => simp [exibirPistas] at hx
  | node l v r ihl ihr =>
    obtain ⟨hv, hl, hr⟩ := ht
    simp only [exibirPistas, List.mem_append, List.mem_cons] at hx
    rcases hx with hx | hx | hx
    · exact ihl hl hx
    · exact hx ▸ hv
    · exact ihr hr hx

theorem AllP_inserir {P : Str → Prop} {t : PistaTree} {p : Str}
    (ht : AllP P t) (hp : P (p.take 99)) : AllP P (inserirPista t p) := by
  induction t with
  | nil => exact ⟨hp, trivial, trivial⟩
  | node l v r ihl ihr =>
    obtain ⟨hv, hl, hr⟩ := ht
    unfold inserirPista
    rcases h : strcmp p v with _ | _ | _
    · exact ⟨hv, ihl hl, hr⟩
    · exact ⟨hv, hl, hr⟩
    · exact ⟨hv, hl, ihr hr⟩

theorem inserir_loose {t : PistaTree} (p : Str)
    (ht : LooseBST t) (hlen : Len99 t) :
    LooseBST (inserirPista t p) ∧ Len99 (inserirPista t p) := by
  induction t with
  | nil =>
    refine ⟨⟨trivial, trivial, trivial, trivial⟩, ⟨?_, trivial, trivial⟩⟩
    simp [List.length_take]
  | node l v r ihl ihr =>
    obtain ⟨hlv, hrv, hbl, hbr⟩ := ht
    obtain ⟨hv99, hl99, hr99⟩ := hlen
    unfold inserirPista
    rcases h : strcmp p v with _ | _ | _
    · have hlt : slt (p.take 99) v := slt_of_sle_of_slt (take_sle 99 p) h
      obtain ⟨hb, h99⟩ := ihl hbl hl99
      exact ⟨⟨AllP_inserir hlv hlt, hrv, hb, hbr⟩, ⟨hv99, h99, hr99⟩⟩
    · exact ⟨⟨hlv, hrv, hbl, hbr⟩, ⟨hv99, hl99, hr99⟩⟩
    · have hgt : slt v p := strcmp_gt_iff.mp h
      have hle : sle v (p.take 99) := sle_take_of_slt hv99 hgt
      obtain ⟨hb, h99⟩ := ihr hbr hr99
      exact ⟨⟨hlv, AllP_inserir hrv hle, hbl, hb⟩, ⟨hv99, hl99, h99⟩⟩

theorem construir_loose (ps : List Str) :
    LooseBST (construirPistas ps) ∧ Len99 (construirPistas ps) := by
  suffices h : ∀ t, LooseBST t → Len99 t →
      LooseBST (ps.foldl inserirPista t) ∧ Len99 (ps.foldl inserirPista t) by
    exact h .nil trivial trivial
  induction ps with
  | nil => exact fun t ht hl => ⟨ht, hl⟩
  | cons p ps ih =>
    intro t ht hl
    obtain ⟨ht', hl'⟩ := inserir_loose p ht hl
    exact ih _ ht' hl'

theorem pairwise_sle_of_loose {t : PistaTree} (ht : LooseBST t) :
    List.Pairwise sle (exibirPistas t) := by
  induction t with
  | nil => simp [exibirPistas]
  | node l v r ihl ihr =>
    obtain ⟨hlv, hrv, hbl, hbr⟩ := ht
    unfold exibirPistas
    rw [List.pairwise_append]
    refine ⟨ihl hbl, ?_, ?_⟩
    · rw [List.pairwise_cons]
      exact ⟨fun b hb => AllP_mem hrv hb, ihr hbr⟩
    · intro a ha b hb
      have hav : slt a v := @AllP_mem (fun x => slt x v) l a hlv ha
      rcases List.mem_cons.mp hb with hb | hb
      · exact hb ▸ sle_iff.mpr (Or.inl hav)
      · have hvb : sle v b := @AllP_mem (fun x => sle v x) r b hrv hb
        exact sle_iff.mpr (Or.inl (slt_of_slt_of_sle hav hvb))

theorem pairwise_slt_of_strict {t : PistaTree} (ht : StrictBST t) :
    List.Pairwise slt (exibirPistas t) := by
  induction t with
  | nil => simp [exibirPistas]
  | node l v r ihl ihr =>
    obtain ⟨hlv, hrv, hbl, hbr⟩ := ht
    unfold exibirPistas
    rw [List.pairwise_append]
    refine ⟨ihl hbl, ?_, ?_⟩
    · rw [List.pairwise_cons]
      exact ⟨fun b hb => @AllP_mem (fun x => slt v x) r b hrv hb, ihr hbr⟩
    · intro a ha b hb
      have hav : slt a v := @AllP_mem (fun x => slt x v) l a hlv ha
      rcases List.mem_cons.mp hb with hb | hb
      · exact hb ▸ hav
      · exact slt_trans hav (@AllP_mem (fun x => slt v x) r b hrv hb)

theorem nodup_exibir {t : PistaTree} (ht : StrictBST t) :
    (exibirPistas t).Nodup :=
  (pairwise_slt_of_strict ht).imp (fun h => slt_ne h)

theorem inserir_strict {t : PistaTree} {p : Str}
    (ht : StrictBST t) (hlen : Len99 t) (hp : p.length ≤ 99) :
    StrictBST (inserirPista t p) ∧ Len99 (inserirPista t p) := by
  have htake : p.take 99 = p := take_of_len_le hp
  induction t with
  | nil =>
    refine ⟨⟨trivial, trivial, trivial, trivial⟩, ⟨?_, trivial, trivial⟩⟩
    simp [List.length_take]
  | node l v r ihl ihr =>
    obtain ⟨hlv, hrv, hbl, hbr⟩ := ht
    obtain ⟨hv99, hl99, hr99⟩ := hlen
    unfold inserirPista
    rcases h : strcmp p v with _ | _ | _
    · have hlt : slt (p.take 99) v := by rw [htake]; exact h
      obtain ⟨hb, h99⟩ := ihl hbl hl99
      exact ⟨⟨AllP_inserir hlv hlt, hrv, hb, hbr⟩, ⟨hv99, h99, hr99⟩⟩
    · exact ⟨⟨hlv, hrv, hbl, hbr⟩, ⟨hv99, hl99, hr99⟩⟩
    · have hgt : slt v (p.take 99) := by rw [htake]; exact strcmp_gt_iff.mp h
      obtain ⟨hb, h99⟩ := ihr hbr hr99
      exact ⟨⟨hlv, AllP_inserir hrv hgt, hbl, hb⟩, ⟨hv99, hl99, h99⟩⟩

theorem construir_strict {ps : List Str} (hps : ∀ q ∈ ps, q.length ≤ 99) :
    StrictBST (construirPistas ps) ∧ Len99 (construirPistas ps) := by
  suffices h : ∀ t, StrictBST t → Len99 t →
      StrictBST (ps.foldl inserirPista t) ∧ Len99 (ps.foldl inserirPista t) by
    exact h .nil trivial trivial
  induction ps with
  | nil => exact fun t ht hl => ⟨ht, hl⟩
  | cons p ps ih =>
    intro t ht hl
    obtain ⟨ht', hl'⟩ := inserir_strict ht hl (hps p (by simp))
    exact ih (fun q hq => hps q (by simp [hq])) _ ht' hl'

/-- After inserting a clue that fits its buffer, the clue is in the tree. -/
theorem mem_inserir_self {t : PistaTree} {p : Str} (hp : p.length ≤ 99) :
    p ∈ exibirPistas (inserirPista t p) := by
  induction t with
  | nil =>
    simp [inserirPista, criarPistaNode, exibirPistas, take_of_len_le hp]
  | node l v r ihl ihr =>
    unfold inserirPista
    rcases h : strcmp p v with _ | _ | _
    · simp only [exibirPistas, List.mem_append]
      exact Or.inl ihl
    · have : p = v := strcmp_eq_iff.mp h
      simp [exibirPistas, this]
    · simp only [exibirPistas, List.mem_append, List.mem_cons]
      exact Or.inr (Or.inr ihr)

/-- Inserting a clue that is already present leaves a strict BST unchanged. -/
theorem inserir_eq_of_mem {t : PistaTree} {p : Str}
    (ht : StrictBST t) (hm : p ∈ exibirPistas t) : inserirPista t p = t := by
  induction t with
  | nil => simp [exibirPistas] at hm
  | node l v r ihl ihr =>
    obtain ⟨hlv, hrv, hbl, hbr⟩ := ht
    simp only [exibirPistas, List.mem_append, List.mem_cons] at hm
    unfold inserirPista
    rcases hm with hm | hm | hm
    · have hpv : slt p v := @AllP_mem (fun x => slt x v) l p hlv hm
      rw [hpv]
      rw [ihl hbl hm]
    · rw [strcmp_eq_iff.mpr hm]
    · have hvp : slt v p := @AllP_mem (fun x => slt v x) r p hrv hm
      rw [strcmp_gt_iff.mpr hvp]
      rw [ihr hbr hm]

/-- Inserting an absent clue grows the tree by exactly one node. -/
theorem tamanho_inserir_of_not_mem {t : PistaTree} {p : Str}
    (hm : p ∉ exibirPistas t) :
    tamanhoPistas (inserirPista t p) = tamanhoPistas t + 1 := by
  induction t with
  | nil => simp [inserirPista, criarPistaNode, tamanhoPistas]
  | node l v r ihl ihr =>
    simp only [exibirPistas, List.mem_append, List.mem_cons] at hm
    push_neg at hm
    obtain ⟨hml, hmv, hmr⟩ := hm
    unfold inserirPista
    rcases h : strcmp p v with _ | _ | _
    · simp only [tamanhoPistas]
      rw [ihl hml]
      omega
    · exact absurd (strcmp_eq_iff.mp h) hmv
    · simp only [tamanhoPistas]
      rw [ihr hmr]
      omega

/-- C1: for every sequence of `inserirPista` calls starting from the empty
tree, the in-order traversal printed by `exibirPistas` lists the stored clues
in non-decreasing `strcmp` (lexicographic) order.  This holds with no
restriction on the inserted strings: even when `criarPistaNode` truncates a
clue to 99 bytes, the truncated key still lands on the correct side. -/
theorem c1_exibirPistas_ordenadas (ps : List Str) :
    List.Sorted sle (exibirPistas (construirPistas ps)) :=
  pairwise_sle_of_loose (construir_loose ps).1

/-- A clue of 100 bytes, one more than the 99 bytes a `PistaNode` keeps. -/
def pistaLonga : Str := List.replicate 100 97

/-- C2 fails as stated: inserting the same 100-byte clue twice from the empty
tree yields a tree of size 2, not 1.  `criarPistaNode` stores only the first
99 bytes, so the second insert compares the full 100-byte clue against the
stored 99-byte prefix, finds it greater, and allocates a second node — the
truncated text now appears twice. -/
theorem c2_contraexemplo :
    tamanhoPistas (inserirPista (inserirPista .nil pistaLonga) pistaLonga) = 2 ∧
      inserirPista (inserirPista .nil pistaLonga) pistaLonga ≠
        inserirPista .nil pistaLonga ∧
      (exibirPistas (inserirPista (inserirPista .nil pistaLonga) pistaLonga)).count
        (List.replicate 99 97) = 2 := by
  refine ⟨by decide, by decide, by decide⟩

/-- C2, amended: for clues that fit the 99-byte node buffer (as every clue in
the shipped mansion data does), a repeated insert is a no-op, inserting a
fresh clue then re-inserting it changes the size by exactly one, and every
clue text occurs at most once in any tree built by `inserirPista`. -/
theorem c2_emendada (ps : List Str) (p : Str)
    (hps : ∀ q ∈ ps, q.length ≤ 99) (hp : p.length ≤ 99) :
    inserirPista (inserirPista (construirPistas ps) p) p =
        inserirPista (construirPistas ps) p ∧
      (p ∉ exibirPistas (construirPistas ps) →
        tamanhoPistas (inserirPista (construirPistas ps) p) =
          tamanhoPistas (construirPistas ps) + 1) ∧
      ∀ q : Str,
        (exibirPistas (inserirPista (construirPistas ps) p)).countP
          (fun x => decide (x = q)) ≤ 1 := by
  obtain ⟨hst, hln⟩ := construir_strict hps
  obtain ⟨hst', _⟩ := inserir_strict hst hln hp
  refine ⟨?_, ?_, ?_⟩
  · exact inserir_eq_of_mem hst' (mem_inserir_self hp)
  · exact fun hm => tamanho_inserir_of_not_mem hm
  · intro q
    have h := List.nodup_iff_count_le_one.mp (nodup_exibir hst') q
    simpa [List.count_eq_countP] using h

/-- Witness for C2 (amended) at a concrete input: inserting the clue `"a"`
twice into the empty tree is idempotent after the first insert, the first
insert grows the size to 1, and no clue is duplicated. -/
theorem c2_emendada_witness :
    inserirPista (inserirPista (construirPistas []) (str "a")) (str "a") =
        inserirPista (construirPistas []) (str "a") ∧
      tamanhoPistas (inserirPista (construirPistas []) (str "a")) =
        tamanhoPistas (construirPistas []) + 1 ∧
      (exibirPistas (inserirPista (construirPistas []) (str "a"))).countP
        (fun x => decide (x = str "a")) ≤ 1 := by
  have h := c2_emendada [] (str "a") (by simp) (by decide)
  exact ⟨h.1, h.2.1 (by decide), h.2.2 (str "a")⟩

/-! ## The suspect hash table (`SuspeitoHash`) -/

/-- Models `#define TAMANHO_HASH 10`. -/
def TAMANHO_HASH : Nat := 10

/-- C `tolower` on the byte values the program feeds it (ASCII). -/
def toLowerByte (c : Nat) : Nat :=
  if 65 ≤ c ∧ c ≤ 90 then c + 32 else c

/-- Models `calcularHash`: djb2-style hash, `hash = ((hash << 5) + hash) + tolower(c)`
starting from 5381, in 64-bit `unsigned long` arithmetic, reduced
`% TAMANHO_HASH` at the end. -/
def calcularHash (chave : Str) : Nat :=
  (chave.foldl (fun hash c => (hash * 2 ^ 5 + hash + toLowerByte c) % 2 ^ 64) 5381)
    % TAMANHO_HASH

theorem calcularHash_lt (chave : Str) : calcularHash chave < TAMANHO_HASH :=
  Nat.mod_lt _ (by decide)

/-- The bucket index actually used to subscript `sh->tabela`. -/
def indiceHash (chave : Str) : Fin TAMANHO_HASH :=
  ⟨calcularHash chave, calcularHash_lt chave⟩

/-- One `HashEntry`: clue text (key, `char[100]`) and suspect name
(value, `char[50]`); the chain link is the list structure of the bucket. -/
structure HashEntry : Type where
  pista : Str
  suspeito : Str
deriving DecidableEq

/-- The `tabela[TAMANHO_HASH]` bucket array. -/
abbrev SuspeitoHash : Type := Fin TAMANHO_HASH → List HashEntry

/-- Models `inicializarHash`: all buckets `NULL`. -/
def inicializarHash : SuspeitoHash := fun _ => []

/-- Models `inserirNaHash` (success path, lines 560-576): hash the full key, copy at
most 99/49 bytes of key/value into the new entry, and prepend it to the
bucket's chain. -/
def inserirNaHash (sh : SuspeitoHash) (pista suspeito : Str) : SuspeitoHash :=
  fun j =>
    if j = indiceHash pista then ⟨pista.take 99, suspeito.take 49⟩ :: sh j
    else sh j

/-- The `while (current != NULL)` scan of `encontrarSuspeito`. -/
def buscarNaCadeia (pista : Str) : List HashEntry → Option Str
  | [] => none
  | e :: resto =>
    if e.pista = pista then some e.suspeito else buscarNaCadeia pista resto

/-- Models `encontrarSuspeito` (lines 584-595): hash the key, scan the bucket chain
for an exact `strcmp` match, return the stored suspect (`none` = `NULL`). -/
def encontrarSuspeito (sh : SuspeitoHash) (pista : Str) : Option Str :=
  buscarNaCadeia pista (sh (indiceHash pista))

/-- C10: `calcularHash` always lands in `0 .. TAMANHO_HASH - 1`, and the
bucket index `inserirNaHash`/`encontrarSuspeito` subscript the 10-entry
`tabela` with is exactly that value, so every bucket access is in bounds. -/
theorem c10_indice_dentro_da_tabela (chave : Str) :
    calcularHash chave < TAMANHO_HASH ∧ (indiceHash chave).val = calcularHash chave :=
  ⟨calcularHash_lt chave, rfl⟩

/-- C8: the table has exactly 10 buckets; `calcularHash` is the classic
multiplicative (times 33) string hash on `tolower`ed bytes, so two keys whose
bytes agree up to letter case always hash to the same bucket. -/
theorem c8_hash_multiplicativo_sem_caso (a b : Str)
    (h : a.map toLowerByte = b.map toLowerByte) :
    TAMANHO_HASH = 10 ∧
      calcularHash a =
        (a.foldl (fun hash c => (hash * 33 + toLowerByte c) % 2 ^ 64) 5381)
          % TAMANHO_HASH ∧
      calcularHash a = calcularHash b := by
  refine ⟨rfl, ?_, ?_⟩
  · unfold calcularHash
    have : (fun (hash c : Nat) => (hash * 2 ^ 5 + hash + toLowerByte c) % 2 ^ 64)
        = fun (hash c : Nat) => (hash * 33 + toLowerByte c) % 2 ^ 64 := by
      funext hash c
      norm_num
      ring_nf
    rw [this]
  · unfold calcularHash
    suffices hfold : ∀ (a b : Str) (init : Nat), a.map toLowerByte = b.map toLowerByte →
        a.foldl (fun hash c => (hash * 2 ^ 5 + hash + toLowerByte c) % 2 ^ 64) init =
          b.foldl (fun hash c => (hash * 2 ^ 5 + hash + toLowerByte c) % 2 ^ 64) init by
      rw [hfold a b 5381 h]
    intro a
    induction a with
    | nil =>
      intro b init hb
      cases b with
      | nil => rfl
      | cons d ds => simp at hb
    | cons c cs ih =>
      intro b init hb
      cases b with
      | nil => simp at hb
      | cons d ds =>
        simp only [List.map_cons, List.cons.injEq] at hb
        obtain ⟨h1, h2⟩ := hb
        simp only [List.foldl_cons, h1]
        exact ih ds _ h2

/-- Witness for C8: `"ABC"` and `"abc"` are case variants and hash alike. -/
theorem c8_hash_witness :
    (str "ABC").map toLowerByte = (str "abc").map toLowerByte ∧
      calcularHash (str "ABC") = calcularHash (str "abc") :=
  ⟨by decide, (c8_hash_multiplicativo_sem_caso (str "ABC") (str "abc") (by decide)).2.2⟩

/-- C3 fails as stated: for a 100-byte clue, `inserirNaHash` stores only the
first 99 bytes of the key, so the immediate `encontrarSuspeito` lookup with
the full key finds no exact `strcmp` match and returns `NULL` instead of the
just-inserted suspect. -/
theorem c3_contraexemplo :
    encontrarSuspeito (inserirNaHash inicializarHash pistaLonga (str "X"))
        pistaLonga = none ∧
      encontrarSuspeito (inserirNaHash inicializarHash pistaLonga (str "X"))
        pistaLonga ≠ some (str "X") := by
  refine ⟨by decide, by decide⟩

/-- C3, amended: when the clue fits the 99-byte key buffer and the suspect
fits the 49-byte value buffer (true of every clue/suspect pair the program
inserts), a lookup immediately after `inserirNaHash` returns exactly the
inserted suspect — the new entry heads the chain of the bucket both
operations select with the same hash. -/
theorem c3_emendada (sh : SuspeitoHash) (pista suspeito : Str)
    (hp : pista.length ≤ 99) (hs : suspeito.length ≤ 49) :
    encontrarSuspeito (inserirNaHash sh pista suspeito) pista = some suspeito := by
  unfold encontrarSuspeito inserirNaHash
  simp only [if_pos rfl]
  unfold buscarNaCadeia
  rw [take_of_len_le hp, take_of_len_le hs]
  simp

/-- Witness for C3 (amended) at a concrete clue/suspect pair. -/
theorem c3_emendada_witness :
    (str "p").length ≤ 99 ∧ (str "s").length ≤ 49 ∧
      encontrarSuspeito (inserirNaHash inicializarHash (str "p") (str "s"))
        (str "p") = some (str "s") :=
  ⟨by decide, by decide,
    c3_emendada inicializarHash (str "p") (str "s") (by decide) (by decide)⟩

/-! ## Allocation failure (claim C7)

Each allocating operation is modelled with an explicit `alocou : Bool` saying
whether its `malloc` succeeded; `Except.error ()` models
`exit(EXIT_FAILURE)`, `Except.ok` a normal return.  `criarSala` (all three
levels) and `criarPistaNode` print a message and call `exit` on failure.
`inserirNaHash` (lines 563-567) instead prints a message and executes a plain
`return;` — the process continues with the table unchanged. -/

/-- Models `criarPistaNode` with its allocation outcome made explicit. -/
def criarPistaNodeAlloc (alocou : Bool) (conteudoPista : Str) :
    Except Unit PistaTree :=
  if alocou then .ok (criarPistaNode conteudoPista) else .error ()

/-- Models `inserirNaHash` with its allocation outcome made explicit: on `malloc`
failure it returns normally, leaving the table as it was. -/
def inserirNaHashAlloc (alocou : Bool) (sh : SuspeitoHash)
    (pista suspeito : Str) : Except Unit SuspeitoHash :=
  if alocou then .ok (inserirNaHash sh pista suspeito) else .ok sh

/-! ## The mansion map (master level `Sala`) -/

/-- A master-level `Sala *`: `NULL` or a room with name (`char[50]`), clue
(`char[100]`, empty = none), implicated suspect (`char[50]`) and two child
pointers. -/
inductive MapTree : Type where
  | nil : MapTree
  | node : Str → Str → Str → MapTree → MapTree → MapTree
deriving DecidableEq

/-- Models `criarSala` (master, lines 508-524, success path): copy at most 49/99/49
bytes of name/clue/suspect and start with `NULL` children. -/
def criarSala (nomeSala conteudoPista alvo : Str) : MapTree :=
  .node (nomeSala.take 49) (conteudoPista.take 99) (alvo.take 49) .nil .nil

/-- A `criarSala` call followed by the child assignments `main` performs
(`sala->esquerda = ...; sala->direita = ...`). -/
def salaCom (nomeSala conteudoPista alvo : Str)
    (esquerda direita : MapTree) : MapTree :=
  .node (nomeSala.take 49) (conteudoPista.take 99) (alvo.take 49) esquerda direita

/-- Models `criarSala` with its allocation outcome made explicit: on `malloc`
failure it prints a diagnostic and calls `exit(EXIT_FAILURE)`. -/
def criarSalaAlloc (alocou : Bool) (nomeSala conteudoPista alvo : Str) :
    Except Unit MapTree :=
  if alocou then .ok (criarSala nomeSala conteudoPista alvo) else .error ()

/-- C7 fails as stated: `inserirNaHash`'s allocation failure does *not*
terminate the process.  Lines 563-567 print the diagnostic and execute a
plain `return;`, so the call returns normally (table unchanged) and execution
continues — unlike every `criarSala`/`criarPistaNode`, which call
`exit(EXIT_FAILURE)`. -/
theorem c7_contraexemplo :
    inserirNaHashAlloc false inicializarHash [] [] =
        Except.ok inicializarHash ∧
      inserirNaHashAlloc false inicializarHash [] [] ≠ Except.error () := by
  constructor
  · rfl
  · intro h
    cases h

/-- C7, amended: allocation failure in `criarSala` and `criarPistaNode` ends
the process immediately (`exit(EXIT_FAILURE)`, modelled `Except.error ()`),
but allocation failure in `inserirNaHash` is handled by printing a message
and returning normally with the table unchanged. -/
theorem c7_emendada (nomeSala conteudoPista alvo p pista suspeito : Str)
    (sh : SuspeitoHash) :
    criarSalaAlloc false nomeSala conteudoPista alvo = Except.error () ∧
      criarPistaNodeAlloc false p = Except.error () ∧
      inserirNaHashAlloc false sh pista suspeito = Except.ok sh :=
  ⟨rfl, rfl, rfl⟩

/-! ## Judgment (`contarPistasParaSuspeito` / `verificarSuspeitoFinal`) -/

/-- Models `contarPistasParaSuspeito` (lines 738-757): walk the clue BST; for each
node look the clue up in the hash table and count 1 when the stored suspect
compares `strcmp`-equal to the accused. -/
def contarPistasParaSuspeito : PistaTree → SuspeitoHash → Str → Nat
  | .nil, _, _ => 0
  | .node esquerda pista direita, sh, acusado =>
    (match encontrarSuspeito sh pista with
      | some suspeitoDaPista => if suspeitoDaPista = acusado then 1 else 0
      | none => 0) +
      contarPistasParaSuspeito esquerda sh acusado +
      contarPistasParaSuspeito direita sh acusado

/-- The verdict printed by `verificarSuspeitoFinal`. -/
inductive Veredito : Type where
  | sustentada : Veredito
  | fraca : Veredito
deriving DecidableEq

/-- Models `int pistas_minimas = 2;` -/
def pistas_minimas : Nat := 2

/-- Models `verificarSuspeitoFinal` (lines 767-802): with no collected clues the
accusation phase is aborted (`none`); otherwise the verdict is sustained
exactly when the count reaches `pistas_minimas`. -/
def verificarSuspeitoFinal (pistasColetadas : PistaTree) (sh : SuspeitoHash)
    (acusado : Str) : Option Veredito :=
  if pistasColetadas = .nil then none
  else if pistas_minimas ≤ contarPistasParaSuspeito pistasColetadas sh acusado then
    some .sustentada
  else some .fraca

theorem contar_eq_countP (t : PistaTree) (sh : SuspeitoHash) (acusado : Str) :
    contarPistasParaSuspeito t sh acusado =
      (exibirPistas t).countP
        (fun p => decide (encontrarSuspeito sh p = some acusado)) := by
  induction t with
  | nil => rfl
  | node l v r ihl ihr =>
    unfold contarPistasParaSuspeito exibirPistas
    rw [List.countP_append, List.countP_cons]
    rw [ihl, ihr]
    rcases h : encontrarSuspeito sh v with _ | s
    · simp [h]
    · by_cases hs : s = acusado
      · simp [h, hs]
        omega
      · simp [h, hs]

/-- If no clue's lookup can return the accused, the count is zero. -/
theorem contar_eq_zero (t : PistaTree) (sh : SuspeitoHash) (acusado : Str)
    (h : ∀ p s, encontrarSuspeito sh p = some s → s ≠ acusado) :
    contarPistasParaSuspeito t sh acusado = 0 := by
  induction t with
  | nil => rfl
  | node l v r ihl ihr =>
    unfold contarPistasParaSuspeito
    rw [ihl, ihr]
    rcases hv : encontrarSuspeito sh v with _ | s
    · simp
    · simp [h v s hv]

/-- C4: on any clue BST (a tree satisfying the strict search-tree invariant
`inserirPista` maintains), `contarPistasParaSuspeito` returns exactly the
number of distinct clues whose hash lookup yields a suspect `strcmp`-equal to
the accused (the traversal visits no clue twice), and — when clues were
collected — `verificarSuspeitoFinal` declares the accusation sustained iff
that count reaches the fixed threshold `pistas_minimas = 2`, weak iff it does
not. -/
theorem c4_contagem_e_veredito (t : PistaTree) (sh : SuspeitoHash)
    (acusado : Str) (hbst : StrictBST t) (hne : t ≠ .nil) :
    (exibirPistas t).Nodup ∧
      contarPistasParaSuspeito t sh acusado =
        ((exibirPistas t).dedup.filter
          (fun p => decide (encontrarSuspeito sh p = some acusado))).length ∧
      (verificarSuspeitoFinal t sh acusado = some .sustentada ↔
        2 ≤ contarPistasParaSuspeito t sh acusado) ∧
      (verificarSuspeitoFinal t sh acusado = some .fraca ↔
        contarPistasParaSuspeito t sh acusado < 2) := by
  have hnd : (exibirPistas t).Nodup := nodup_exibir hbst
  refine ⟨hnd, ?_, ?_, ?_⟩
  · rw [List.dedup_eq_self.mpr hnd, contar_eq_countP, List.countP_eq_length_filter]
  · unfold verificarSuspeitoFinal
    rw [if_neg hne]
    by_cases h2 : pistas_minimas ≤ contarPistasParaSuspeito t sh acusado
    · simp [h2]
      exact h2
    · simp [h2]
      unfold pistas_minimas at h2
      omega
  · unfold verificarSuspeitoFinal
    rw [if_neg hne]
    by_cases h2 : pistas_minimas ≤ contarPistasParaSuspeito t sh acusado
    · simp [h2]
      unfold pistas_minimas at h2
      omega
    · simp [h2]
      unfold pistas_minimas at h2
      omega

/-- Witness for C4 at a concrete one-clue BST and one-entry hash table. -/
theorem c4_contagem_witness :
    StrictBST (inserirPista .nil (str "a")) ∧
      inserirPista .nil (str "a") ≠ .nil ∧
      (contarPistasParaSuspeito (inserirPista .nil (str "a"))
          (inserirNaHash inicializarHash (str "a") (str "X")) (str "X") =
        ((exibirPistas (inserirPista .nil (str "a"))).dedup.filter
          (fun p => decide (encontrarSuspeito
            (inserirNaHash inicializarHash (str "a") (str "X")) p =
              some (str "X")))).length) := by
  refine ⟨by decide, by decide, ?_⟩
  exact (c4_contagem_e_veredito (inserirPista .nil (str "a"))
    (inserirNaHash inicializarHash (str "a") (str "X")) (str "X")
    (by decide) (by decide)).2.1

/-! ## The hardcoded master-level mansion (`main`, lines 843-855) -/

/-- The mansion map built by the master-level `main`: each room is a
`criarSala` call, children linked as in the source. -/
def mansaoMestre : MapTree :=
  salaCom (str "Hall de Entrada") (str "A porta estava aberta.")
    (str "Coronel Mostarda")
    (salaCom (str "Sala de Estar") (str "Um colete ensanguentado.")
      (str "D. Branca")
      (salaCom (str "Biblioteca")
        (str "Um recado escrito \x27A Sra. em perigo\x27.") (str "D. Branca")
        .nil .nil)
      (salaCom (str "Sala de Jantar") (str "Uma taça de vinho intacta.")
        (str "") .nil .nil))
    (salaCom (str "Cozinha") (str "Um pote de veneno vazio.")
      (str "Prof. Plum")
      (salaCom (str "Despensa") (str "Uma chave de fenda suja.")
        (str "Coronel Mostarda") .nil .nil)
      (salaCom (str "Jardim de Inverno")
        (str "Um diário com as iniciais \x27C. M.\x27.")
        (str "Coronel Mostarda") .nil .nil))

/-- The (clue, suspect) pairs of the rooms whose clue is nonempty, in the
order a preorder walk meets them: collecting a room's clue inserts `pista`
into the BST and `(pista, suspeito_alvo)` into the hash table. -/
def coletarTodas : MapTree → List (Str × Str)
  | .nil => []
  | .node _ pista alvo esquerda direita =>
    (if pista = [] then [] else [(pista, alvo)]) ++
      coletarTodas esquerda ++ coletarTodas direita

/-- All suspect labels occurring in a map tree. -/
def rotulosSuspeitos : MapTree → List Str
  | .nil => []
  | .node _ _ alvo esquerda direita =>
    alvo :: (rotulosSuspeitos esquerda ++ rotulosSuspeitos direita)

/-- The clue BST after every room's clue of the master mansion has been
collected. -/
def pistasMestre : PistaTree :=
  (coletarTodas mansaoMestre).foldl (fun t pa => inserirPista t pa.1) .nil

/-- The suspect hash table after every room's clue of the master mansion has
been collected. -/
def suspeitosMestre : SuspeitoHash :=
  (coletarTodas mansaoMestre).foldl
    (fun sh pa => inserirNaHash sh pa.1 pa.2) inicializarHash

theorem buscar_some {pista : Str} {l : List HashEntry} {s : Str}
    (h : buscarNaCadeia pista l = some s) : ∃ e ∈ l, e.suspeito = s := by
  induction l with
  | nil => cases h
  | cons e resto ih =>
    unfold buscarNaCadeia at h
    by_cases he : e.pista = pista
    · rw [if_pos he] at h
      exact ⟨e, by simp, Option.some.inj h⟩
    · rw [if_neg he] at h
      obtain ⟨e', hmem, hs⟩ := ih h
      exact ⟨e', by simp [hmem], hs⟩

/-- Every entry of a table built by a fold of `inserirNaHash` calls comes
from one of the inserted pairs (keys/values truncated to their buffers) or
from the initial table. -/
theorem mem_bucket_fold (pares : List (Str × Str)) (sh0 : SuspeitoHash)
    (j : Fin TAMANHO_HASH) (e : HashEntry)
    (he : e ∈ (pares.foldl (fun sh pa => inserirNaHash sh pa.1 pa.2) sh0) j) :
    (∃ pa ∈ pares, e = ⟨pa.1.take 99, pa.2.take 49⟩) ∨ e ∈ sh0 j := by
  induction pares generalizing sh0 with
  | nil => exact Or.inr he
  | cons pa resto ih =>
    simp only [List.foldl_cons] at he
    rcases ih _ he with h | h
    · obtain ⟨pa', hmem, hq⟩ := h
      exact Or.inl ⟨pa', by simp [hmem], hq⟩
    · unfold inserirNaHash at h
      by_cases hj : j = indiceHash pa.1
      · rw [if_pos hj] at h
        rcases List.mem_cons.mp h with h | h
        · exact Or.inl ⟨pa, by simp, h⟩
        · exact Or.inr h
      · rw [if_neg hj] at h
        exact Or.inr h

/-- C5: with the hardcoded master mansion and every room's clue collected
(into `pistasMestre` and `suspeitosMestre`), accusing "Coronel Mostarda"
counts at least `2` clues (the actual count is 3) and the verdict is
sustained, while accusing any name that is no room's suspect label counts 0
clues and the verdict is weak. -/
theorem c5_mostarda_sustentada (nome : Str)
    (hnome : nome ∉ rotulosSuspeitos mansaoMestre) :
    2 ≤ contarPistasParaSuspeito pistasMestre suspeitosMestre
        (str "Coronel Mostarda") ∧
      verificarSuspeitoFinal pistasMestre suspeitosMestre
        (str "Coronel Mostarda") = some .sustentada ∧
      contarPistasParaSuspeito pistasMestre suspeitosMestre nome = 0 ∧
      verificarSuspeitoFinal pistasMestre suspeitosMestre nome = some .fraca := by
  have hzero : contarPistasParaSuspeito pistasMestre suspeitosMestre nome = 0 := by
    apply contar_eq_zero
    intro p s hs heq
    unfold encontrarSuspeito at hs
    obtain ⟨e, hmem, hsusp⟩ := buscar_some hs
    rcases mem_bucket_fold (coletarTodas mansaoMestre) inicializarHash _ e hmem
      with hh | hh
    · obtain ⟨pa, hpa, hee⟩ := hh
      have hall : ∀ pa ∈ coletarTodas mansaoMestre,
          pa.2.take 49 = pa.2 ∧ pa.2 ∈ rotulosSuspeitos mansaoMestre := by decide
      obtain ⟨h49, hrot⟩ := hall pa hpa
      apply hnome
      have : s = pa.2 := by
        rw [← hsusp, hee]
        exact h49
      rw [← heq, this]
      exact hrot
    · simp [inicializarHash] at hh
  refine ⟨by decide, by decide, hzero, ?_⟩
  unfold verificarSuspeitoFinal
  rw [if_neg (show ¬ pistasMestre = .nil by decide), hzero]
  rw [if_neg (by decide)]

/-- Witness for C5 at the uninvolved name "Sherlock". -/
theorem c5_mostarda_witness :
    str "Sherlock" ∉ rotulosSuspeitos mansaoMestre ∧
      2 ≤ contarPistasParaSuspeito pistasMestre suspeitosMestre
        (str "Coronel Mostarda") ∧
      contarPistasParaSuspeito pistasMestre suspeitosMestre (str "Sherlock") = 0 ∧
      verificarSuspeitoFinal pistasMestre suspeitosMestre (str "Sherlock") =
        some .fraca := by
  have h := c5_mostarda_sustentada (str "Sherlock") (by decide)
  exact ⟨by decide, h.1, h.2.2.1, h.2.2.2⟩

/-! ## Exploration loops

The loops read one character per iteration (`scanf(" %c")`); we pass the
character stream explicitly.  `semEntrada` is the state of a run whose input
was exhausted while the loop still wanted another character; `salaNula` is
the `while (salaAtual != NULL)` guard failing (only possible if the loop is
started on a `NULL` room). -/

/-- How a run of an exploration loop ended. -/
inductive FimExploracao : Type where
  | sair : FimExploracao
  | fimFolha : FimExploracao
  | semEntrada : FimExploracao
  | salaNula : FimExploracao
deriving DecidableEq

/-- A novice-level `Sala *`: only a name and two children. -/
inductive NSala : Type where
  | nil : NSala
  | node : Str → NSala → NSala → NSala
deriving DecidableEq

/-- Models `explorarSalas` (novice level, lines 55-106): before reading any input,
a leaf room (`esquerda == NULL && direita == NULL`) breaks the loop; `s`
quits; `e`/`d` move when the child exists, otherwise the loop re-prompts in
the same room. -/
def explorarSalas : List Char → NSala → FimExploracao
  | _, .nil => .salaNula
  | entradas, .node nome esquerda direita =>
    if esquerda = .nil ∧ direita = .nil then .fimFolha
    else
      match entradas with
      | [] => .semEntrada
      | escolha :: resto =>
        if escolha = 's' ∨ escolha = 'S' then .sair
        else if escolha = 'e' ∨ escolha = 'E' then
          if esquerda ≠ .nil then explorarSalas resto esquerda
          else explorarSalas resto (.node nome esquerda direita)
        else if escolha = 'd' ∨ escolha = 'D' then
          if direita ≠ .nil then explorarSalas resto direita
          else explorarSalas resto (.node nome esquerda direita)
        else explorarSalas resto (.node nome esquerda direita)

/-- Directions taken from the hall to the current room (the master loop's
`salaAtual` pointer, represented as a path into the shared map). -/
inductive Dir : Type where
  | esq : Dir
  | dir : Dir
deriving DecidableEq

/-- The room a path points to (`nil` when the path falls off the tree). -/
def subsala : MapTree → List Dir → MapTree
  | t, [] => t
  | .nil, _ :: _ => .nil
  | .node _ _ _ esquerda _, .esq :: caminho => subsala esquerda caminho
  | .node _ _ _ _ direita, .dir :: caminho => subsala direita caminho

/-- Models `salaAtual->pista[0] = '\0'`: clear the clue of the room at the path,
leaving everything else (names, suspects, shape) as is. -/
def limparPista : MapTree → List Dir → MapTree
  | .nil, _ => .nil
  | .node nome _ alvo esquerda direita, [] => .node nome [] alvo esquerda direita
  | .node nome pista alvo esquerda direita, .esq :: caminho =>
    .node nome pista alvo (limparPista esquerda caminho) direita
  | .node nome pista alvo esquerda direita, .dir :: caminho =>
    .node nome pista alvo esquerda (limparPista direita caminho)

/-- One visit's clue collection (master loop lines 672-684): when the current
room has a nonempty clue, insert it into the BST, record the clue/suspect
pair in the hash table, and clear the room's clue in the map. -/
def salaProcessada (mapa : MapTree) (caminho : List Dir) (pistas : PistaTree)
    (sh : SuspeitoHash) : MapTree × PistaTree × SuspeitoHash :=
  match subsala mapa caminho with
  | .nil => (mapa, pistas, sh)
  | .node _ pista alvo _ _ =>
    if pista = [] then (mapa, pistas, sh)
    else (limparPista mapa caminho, inserirPista pistas pista,
      inserirNaHash sh pista alvo)

/-- Final state of a master exploration run. -/
structure ResultadoMestre : Type where
  fim : FimExploracao
  mapa : MapTree
  pistas : PistaTree
  suspeitos : SuspeitoHash

/-- Models `explorarSalas` (master level, lines 662-726): every iteration first
collects the current room's clue, then reads a character; `s` leaves for the
accusation, `e`/`d` move when the child exists, anything else re-prompts.
Unlike the novice loop there is *no* leaf check — a leaf room only changes
what the menu offers. -/
def explorarSalasMestre : List Char → MapTree → List Dir → PistaTree →
    SuspeitoHash → ResultadoMestre
  | [], mapa, caminho, pistas, sh =>
    match subsala mapa caminho with
    | .nil => ⟨.salaNula, mapa, pistas, sh⟩
    | .node _ _ _ _ _ =>
      ⟨.semEntrada, (salaProcessada mapa caminho pistas sh).1,
        (salaProcessada mapa caminho pistas sh).2.1,
        (salaProcessada mapa caminho pistas sh).2.2⟩
  | escolha :: resto, mapa, caminho, pistas, sh =>
    match subsala mapa caminho with
    | .nil => ⟨.salaNula, mapa, pistas, sh⟩
    | .node _ _ _ esquerda direita =>
      if escolha = 's' ∨ escolha = 'S' then
        ⟨.sair, (salaProcessada mapa caminho pistas sh).1,
          (salaProcessada mapa caminho pistas sh).2.1,
          (salaProcessada mapa caminho pistas sh).2.2⟩
      else if escolha = 'e' ∨ escolha = 'E' then
        if esquerda ≠ .nil then
          explorarSalasMestre resto (salaProcessada mapa caminho pistas sh).1
            (caminho ++ [.esq]) (salaProcessada mapa caminho pistas sh).2.1
            (salaProcessada mapa caminho pistas sh).2.2
        else
          explorarSalasMestre resto (salaProcessada mapa caminho pistas sh).1
            caminho (salaProcessada mapa caminho pistas sh).2.1
            (salaProcessada mapa caminho pistas sh).2.2
      else if escolha = 'd' ∨ escolha = 'D' then
        if direita ≠ .nil then
          explorarSalasMestre resto (salaProcessada mapa caminho pistas sh).1
            (caminho ++ [.dir]) (salaProcessada mapa caminho pistas sh).2.1
            (salaProcessada mapa caminho pistas sh).2.2
        else
          explorarSalasMestre resto (salaProcessada mapa caminho pistas sh).1
            caminho (salaProcessada mapa caminho pistas sh).2.1
            (salaProcessada mapa caminho pistas sh).2.2
      else
        explorarSalasMestre resto (salaProcessada mapa caminho pistas sh).1
          caminho (salaProcessada mapa caminho pistas sh).2.1
          (salaProcessada mapa caminho pistas sh).2.2

/-- A leaf room for the master loop (no children, no clue). -/
def folhaMestre : MapTree := criarSala (str "Quarto") (str "") (str "")

/-- A leaf room for the novice loop. -/
def folhaNovato : NSala := .node (str "Quarto") .nil .nil

/-- C6 fails as stated for the master exploration loop (which the claim
cites): started in a leaf room, the loop does *not* terminate — with no
input it is still waiting for a character, and with input `e` it re-prompts
and is again waiting.  The master loop has no leaf check at all; only the
novice loop (also cited) breaks upon entering a leaf, before reading input. -/
theorem c6_contraexemplo :
    (explorarSalasMestre [] folhaMestre [] .nil inicializarHash).fim =
        .semEntrada ∧
      (explorarSalasMestre ['e'] folhaMestre [] .nil inicializarHash).fim =
        .semEntrada ∧
      explorarSalas [] folhaNovato = .fimFolha := by
  refine ⟨by decide, by decide, by decide⟩

/-- C6, amended: the novice loop always ends with `fimFolha` the moment its
current room is a leaf, whatever the input; the master loop, started in a
leaf room, ends with `sair` exactly when some input character is `s`/`S`
(the only exits it has) and otherwise exhausts its input still running. -/
theorem c6_emendada (n nome pista alvo : Str) (entradas : List Char)
    (pistas : PistaTree) (sh : SuspeitoHash) :
    explorarSalas entradas (.node n .nil .nil) = .fimFolha ∧
      (explorarSalasMestre entradas (.node nome pista alvo .nil .nil) []
          pistas sh).fim =
        if entradas.any (fun c => c == 's' || c == 'S') then .sair
        else .semEntrada := by
  constructor
  · unfold explorarSalas
    rw [if_pos ⟨rfl, rfl⟩]
  · induction entradas generalizing pista pistas sh with
    | nil =>
      unfold explorarSalasMestre
      simp [subsala]
    | cons c resto ih =>
      unfold explorarSalasMestre
      simp only [subsala]
      by_cases hs : c = 's' ∨ c = 'S'
      · rw [if_pos hs]
        have : ((c == 's' || c == 'S') = true) := by
          rcases hs with h | h <;> simp [h]
        simp [List.any_cons, this]
      · rw [if_neg hs]
        push_neg at hs
        obtain ⟨hs1, hs2⟩ := hs
        have hcs : ((c == 's' || c == 'S') = false) := by simp [hs1, hs2]
        rw [List.any_cons, hcs, Bool.false_or]
        have hred : salaProcessada (.node nome pista alvo .nil .nil) [] pistas sh
            = (if pista = [] then
                ((.node nome pista alvo .nil .nil : MapTree), pistas, sh)
              else ((.node nome [] alvo .nil .nil : MapTree),
                inserirPista pistas pista, inserirNaHash sh pista alvo)) := by
          simp only [salaProcessada, subsala]
          by_cases hp : pista = []
          · rw [if_pos hp, if_pos hp]
          · rw [if_neg hp, if_neg hp]
            rfl
        by_cases he : c = 'e' ∨ c = 'E'
        · rw [if_pos he]
          rw [if_neg (by intro hh; exact hh rfl)]
          rw [hred]
          by_cases hp : pista = []
          · rw [if_pos hp]
            exact ih pista pistas sh
          · rw [if_neg hp]
            exact ih [] (inserirPista pistas pista) (inserirNaHash sh pista alvo)
        · rw [if_neg he]
          by_cases hd : c = 'd' ∨ c = 'D'
          · rw [if_pos hd]
            rw [if_neg (by intro hh; exact hh rfl)]
            rw [hred]
            by_cases hp : pista = []
            · rw [if_pos hp]
              exact ih pista pistas sh
            · rw [if_neg hp]
              exact ih [] (inserirPista pistas pista) (inserirNaHash sh pista alvo)
          · rw [if_neg hd]
            rw [hred]
            by_cases hp : pista = []
            · rw [if_pos hp]
              exact ih pista pistas sh
            · rw [if_neg hp]
              exact ih [] (inserirPista pistas pista) (inserirNaHash sh pista alvo)

/-- Relation between the map before and after exploration: identical shape,
names and suspect labels; each room's clue is either untouched or cleared to
the empty string. -/
def apenasPistasLimpas : MapTree → MapTree → Prop
  | .nil, .nil => True
  | .node nome pista alvo esquerda direita,
      .node nome' pista' alvo' esquerda' direita' =>
    nome' = nome ∧ alvo' = alvo ∧ (pista' = pista ∨ pista' = []) ∧
      apenasPistasLimpas esquerda esquerda' ∧
      apenasPistasLimpas direita direita'
  | _, _ => False

theorem apl_refl (t : MapTree) : apenasPistasLimpas t t := by
  induction t with
  | nil => trivial
  | node n p a l r ihl ihr => exact ⟨rfl, rfl, Or.inl rfl, ihl, ihr⟩

theorem apl_limpar (t : MapTree) (caminho : List Dir) :
    apenasPistasLimpas t (limparPista t caminho) := by
  induction t generalizing caminho with
  | nil =>
    cases caminho with
    | nil => trivial
    | cons d resto => trivial
  | node n p a l r ihl ihr =>
    cases caminho with
    | nil => exact ⟨rfl, rfl, Or.inr rfl, apl_refl l, apl_refl r⟩
    | cons d resto =>
      cases d with
      | esq => exact ⟨rfl, rfl, Or.inl rfl, ihl resto, apl_refl r⟩
      | dir => exact ⟨rfl, rfl, Or.inl rfl, apl_refl l, ihr resto⟩

theorem apl_trans {a b c : MapTree} (hab : apenasPistasLimpas a b)
    (hbc : apenasPistasLimpas b c) : apenasPistasLimpas a c := by
  induction a generalizing b c with
  | nil =>
    cases b with
    | nil =>
      cases c with
      | nil => trivial
      | node n3 p3 a3 l3 r3 => exact hbc.elim
    | node n2 p2 a2 l2 r2 => exact hab.elim
  | node n p a l r ihl ihr =>
    cases b with
    | nil => exact hab.elim
    | node n2 p2 a2 l2 r2 =>
      cases c with
      | nil => exact hbc.elim
      | node n3 p3 a3 l3 r3 =>
        obtain ⟨hn2, ha2, hp2, hl2, hr2⟩ := hab
        obtain ⟨hn3, ha3, hp3, hl3, hr3⟩ := hbc
        refine ⟨hn3.trans hn2, ha3.trans ha2, ?_, ihl hl2 hl3, ihr hr2 hr3⟩
        rcases hp3 with h3 | h3
        · rcases hp2 with h2 | h2
          · exact Or.inl (h3.trans h2)
          · exact Or.inr (h3.trans h2)
        · exact Or.inr h3

/-- The single-visit collection step only (possibly) clears the visited
room's clue. -/
theorem salaProcessada_apl (mapa : MapTree) (caminho : List Dir)
    (pistas : PistaTree) (sh : SuspeitoHash) :
    apenasPistasLimpas mapa (salaProcessada mapa caminho pistas sh).1 := by
  unfold salaProcessada
  cases hsub : subsala mapa caminho with
  | nil => exact apl_refl mapa
  | node n p a l r =>
    simp only []
    by_cases hp : p = []
    · rw [if_pos hp]
      exact apl_refl mapa
    · rw [if_neg hp]
      exact apl_limpar mapa caminho

/-- C9: for every starting map, path and input sequence, the master
exploration loop leaves the final map related to the initial one by
`apenasPistasLimpas` — same shape, same room names, same suspect labels and
same child structure; the only mutations are clue fields reset to the empty
string when their room was visited. -/
theorem c9_exploracao_so_limpa_pistas (entradas : List Char) (mapa : MapTree)
    (caminho : List Dir) (pistas : PistaTree) (sh : SuspeitoHash) :
    apenasPistasLimpas mapa
      (explorarSalasMestre entradas mapa caminho pistas sh).mapa := by
  induction entradas generalizing mapa caminho pistas sh with
  | nil =>
    unfold explorarSalasMestre
    cases hsub : subsala mapa caminho with
    | nil => exact apl_refl mapa
    | node n p a l r => exact salaProcessada_apl mapa caminho pistas sh
  | cons c resto ih =>
    unfold explorarSalasMestre
    cases hsub : subsala mapa caminho with
    | nil => exact apl_refl mapa
    | node n p a l r =>
      simp only []
      have hstep := salaProcessada_apl mapa caminho pistas sh
      by_cases hs : c = 's' ∨ c = 'S'
      · rw [if_pos hs]
        exact hstep
      · rw [if_neg hs]
        by_cases he : c = 'e' ∨ c = 'E'
        · rw [if_pos he]
          by_cases hl : l = MapTree.nil
          · rw [if_neg (not_not_intro hl)]
            exact apl_trans hstep (ih _ _ _ _)
          · rw [if_pos hl]
            exact apl_trans hstep (ih _ _ _ _)
        · rw [if_neg he]
          by_cases hd : c = 'd' ∨ c = 'D'
          · rw [if_pos hd]
            by_cases hr : r = MapTree.nil
            · rw [if_neg (not_not_intro hr)]
              exact apl_trans hstep (ih _ _ _ _)
            · rw [if_pos hr]
              exact apl_trans hstep (ih _ _ _ _)
          · rw [if_neg hd]
            exact apl_trans hstep (ih _ _ _ _)
